import Mathlib

/-!
# Verification of the `ocs` commit-history analysis engine

Shallow embedding of the core traversal and aggregation engine of the
`ocs` repository (Rust, using libgit2 through the `git2` crate):

* `src/git.rs` — `determine_commits_to_analyse`, `commit_message_matches`,
  `commit_timestamp_is_in_range`;
* `src/subcommands/summary.rs` — the Summary aggregator;
* `src/subcommands/hotspot.rs` — the Hotspot aggregator;
* `src/cli.rs` — `GitArgs::from_cli_args`.

Modelling conventions:

* Rust strings (entry names, commit messages, grep patterns, revision
  specifiers) are byte sequences; we model them as `List Nat`.  Rust's
  `String`/`str` ordering is byte-wise lexicographic, and `str::contains`
  with a `&str` pattern is literal byte-substring search.
* `git2::Time` carries seconds and a UTC offset; its derived ordering is
  lexicographic on `(seconds, offset)`.  We model it as `GTime`.
* `BTreeSet<T>` is modelled as a strictly sorted list with the BTreeSet
  operations `insert` (keep the existing element on an equal key), `get`
  (ordered search) and `replace` (overwrite on an equal key).
* `git2`'s `Oid` values are opaque content ids; we model them as `Nat`.
* Fallible operations return `Except GitError _` / `Option _`.
-/

/-- A git error token (resolution failure, lookup failure, …), mirroring
`git2::Error` as an opaque value carrying what failed. -/
inductive GitError where
  | resolveFailed : List Nat → GitError
  | mergeBaseFailed : Nat → Nat → GitError
  | findObjectFailed : Nat → GitError
  | findCommitFailed : Nat → GitError
  | walkFailed : Nat → GitError
deriving DecidableEq, Repr

/-- Model of `git2::Time`: seconds since epoch plus UTC offset in minutes.
The derived Rust ordering is lexicographic on `(seconds, offset)`. -/
structure GTime where
  seconds : Int
  offset : Int
deriving DecidableEq, Repr

/-- The strict order on `git2::Time` used by `<` in the Rust code:
lexicographic on `(seconds, offset)`. -/
def timeLt (a b : GTime) : Bool :=
  a.seconds < b.seconds || (a.seconds == b.seconds && a.offset < b.offset)

/-- Byte-wise lexicographic strict order on byte strings, Rust's `Ord` for
`String`/`str` (used by `BTreeSet<String>` and `Ord for EntryRevisions`). -/
def nameLt : List Nat → List Nat → Bool
  | [], [] => false
  | [], _ :: _ => true
  | _ :: _, [] => false
  | a :: as, b :: bs => a < b || (a == b && nameLt as bs)

/-- `leadsWith p m` holds when `p` is a prefix of the byte string `m`
(Rust `str::starts_with` on the byte level). -/
def leadsWith : List Nat → List Nat → Bool
  | [], _ => true
  | _ :: _, [] => false
  | p :: ps, m :: ms => p == m && leadsWith ps ms

/-- Model of Rust's `str::contains` with a string pattern: literal,
case-sensitive byte-substring search. -/
def containsSubstr : List Nat → List Nat → Bool
  | msg, pat =>
    if leadsWith pat msg then true
    else
      match msg with
      | [] => false
      | _ :: rest => containsSubstr rest pat

/-- `src/git.rs` `commit_message_matches`: no pattern accepts anything; a
pattern rejects a message-less commit; otherwise literal substring test. -/
def commit_message_matches (msg : Option (List Nat)) (grep : Option (List Nat)) : Bool :=
  match grep, msg with
  | none, _ => true
  | some _, none => false
  | some s, some m => containsSubstr m s

/-- `src/git.rs` `commit_timestamp_is_in_range`: if a before bound `b` is
set and `b < timestamp` return `false`; otherwise if an after bound `a` is
set return `a < timestamp`; otherwise `true`. -/
def commit_timestamp_is_in_range (timestamp : GTime)
    (before : Option GTime) (after : Option GTime) : Bool :=
  let afterPart : Bool :=
    match after with
    | some a => timeLt a timestamp
    | none => true
  match before with
  | some b => if timeLt b timestamp then false else afterPart
  | none => afterPart

/-! ## Trees and the tree walk

`git2::Tree` is an ordered list of entries; each entry has an optional
UTF-8 name (`entry.name()` is `None` on invalid UTF-8), a kind tag
(`Blob`, `Tree`, or other object types) and an object id.  A mutual
inductive avoids nested-inductive recursion issues. -/

mutual
inductive TreeEntry where
  | blob : Option (List Nat) → Nat → TreeEntry
  | sub : Option (List Nat) → TreeList → TreeEntry
  | other : Option (List Nat) → Nat → TreeEntry
deriving DecidableEq, Repr
inductive TreeList where
  | nil : TreeList
  | cons : TreeEntry → TreeList → TreeList
deriving DecidableEq, Repr
end

/-- The name used when extending a walk root for a subtree whose name
is not valid UTF-8 (`git2` builds the root string from raw bytes). -/
def nameOrEmpty : Option (List Nat) → List Nat
  | some n => n
  | none => []

mutual
/-- One step of `git2`'s `Tree::walk` in `TreeWalkMode::PreOrder`: the
callback sees the entry itself (paired with the `root` directory prefix),
then the walk descends into subtree entries. -/
def entryWalk (root : List Nat) (e : TreeEntry) : List (List Nat × TreeEntry) :=
  (root, e) ::
    (match e with
     | TreeEntry.sub name ts => listWalk (root ++ nameOrEmpty name ++ [47]) ts
     | _ => [])
/-- `git2` `Tree::walk` (pre-order) over a list of sibling entries. -/
def listWalk (root : List Nat) (ts : TreeList) : List (List Nat × TreeEntry) :=
  match ts with
  | TreeList.nil => []
  | TreeList.cons e rest => entryWalk root e ++ listWalk root rest
end

/-- Model of `git2::Commit`: optional author name, optional message,
timestamp, root tree.  (Parents are not consulted by the aggregators;
ancestry is the Repository Handle's business, see `Repo`.) -/
structure GCommit where
  author : Option (List Nat)
  message : Option (List Nat)
  time : GTime
  tree : TreeList
deriving DecidableEq, Repr

/-! ## `BTreeSet` models: strictly sorted lists -/

/-- `BTreeSet<String>::insert`: ordered insert keeping the existing
element when an equal one is present. -/
def insertName (x : List Nat) : List (List Nat) → List (List Nat)
  | [] => [x]
  | y :: rest =>
    if nameLt x y then x :: y :: rest
    else if nameLt y x then y :: insertName x rest
    else y :: rest

/-- `BTreeSet<Oid>::insert`: ordered insert keeping the existing element
when an equal one is present. -/
def insertOid (x : Nat) : List Nat → List Nat
  | [] => [x]
  | y :: rest =>
    if x < y then x :: y :: rest
    else if y < x then y :: insertOid x rest
    else y :: rest

/-- The Hotspot aggregator state: `BTreeSet<EntryRevisions>` where
`EntryRevisions { name, revisions }` compares by `name` alone.  Modelled
as a list of `(name, revisions)` pairs kept strictly sorted by name; each
`revisions` is a sorted `BTreeSet<Oid>` model. -/
def HotState : Type := List (List Nat × List Nat)

/-- `BTreeSet<EntryRevisions>::insert`: ordered insert by name; when an
entry with an equal name is already present the set is left unchanged
(Rust `BTreeSet::insert` does not overwrite an equal element). -/
def hsInsert (e : List Nat × List Nat) : HotState → HotState
  | [] => [e]
  | y :: rest =>
    if nameLt e.1 y.1 then e :: y :: rest
    else if nameLt y.1 e.1 then y :: hsInsert e rest
    else y :: rest

/-- `BTreeSet<EntryRevisions>::get`: ordered search by name. -/
def hsGet (name : List Nat) : HotState → Option (List Nat × List Nat)
  | [] => none
  | y :: rest =>
    if nameLt name y.1 then none
    else if nameLt y.1 name then hsGet name rest
    else some y

/-- `BTreeSet<EntryRevisions>::replace`: ordered insert by name that
overwrites an entry with an equal name. -/
def hsReplace (e : List Nat × List Nat) : HotState → HotState
  | [] => [e]
  | y :: rest =>
    if nameLt e.1 y.1 then e :: y :: rest
    else if nameLt y.1 e.1 then y :: hsReplace e rest
    else e :: rest

/-! ## Aggregator per-entry operations -/

/-- Body of the `summary.rs` `analyse_entries_in_commit` walk callback:
for a blob entry with a UTF-8 name, insert the entry's own (leaf) name
into the path-name set; the `root` prefix is ignored (`|_, entry|`). -/
def summaryEntryStep (entries : List (List Nat)) : List Nat × TreeEntry → List (List Nat)
  | (_, TreeEntry.blob (some n) _) => insertName n entries
  | (_, _) => entries

/-- `summary.rs` `analyse_entries_in_commit`: walk the commit tree in
pre-order and insert each blob entry's leaf name into `entries`. -/
def analyse_entries_in_commit (commit : GCommit) (entries : List (List Nat)) :
    List (List Nat) :=
  (listWalk [] commit.tree).foldl summaryEntryStep entries

/-- Body of the `summary.rs` `analyse_entries_changed_in_commit` walk
callback: insert every blob entry's object id (no name needed). -/
def summaryChangedStep (changed : List Nat) : List Nat × TreeEntry → List Nat
  | (_, TreeEntry.blob _ oid) => insertOid oid changed
  | (_, _) => changed

/-- `summary.rs` `analyse_entries_changed_in_commit`: walk the commit
tree in pre-order and insert each blob entry's content id. -/
def analyse_entries_changed_in_commit (commit : GCommit) (changed : List Nat) :
    List Nat :=
  (listWalk [] commit.tree).foldl summaryChangedStep changed

/-- Body of the `hotspot.rs` `analyse_entries_in_commit` walk callback
for one blob entry with name `n` and content id `oid`:
`entries.insert(EntryRevisions::new(n))` (fresh empty revision set, no-op
when the name is present), then `entries.get(..)`, clone, insert `oid`
into the clone's revision set, and `entries.replace(..)` it. -/
def hotspotObserve (n : List Nat) (oid : Nat) (entries : HotState) : HotState :=
  let entries2 := hsInsert (n, []) entries
  match hsGet n entries2 with
  | some er => hsReplace (er.1, insertOid oid er.2) entries2
  | none => entries2

/-- The `hotspot.rs` walk callback on an arbitrary visited entry: only
blob entries with a UTF-8 name are observed, under their leaf name. -/
def hotspotEntryStep (entries : HotState) : List Nat × TreeEntry → HotState
  | (_, TreeEntry.blob (some n) oid) => hotspotObserve n oid entries
  | (_, _) => entries

/-- `hotspot.rs` `analyse_entries_in_commit`: walk the commit tree in
pre-order, feeding each named blob entry into the hotspot state. -/
def hotspot_analyse_entries_in_commit (commit : GCommit) (entries : HotState) :
    HotState :=
  (listWalk [] commit.tree).foldl hotspotEntryStep entries

/-! ## Repository handle, revision selector, filter pipeline -/

/-- Result of `git2::Repository::revparse`: either `SINGLE` mode with one
object, or a range with `from`/`to` endpoints and a `MERGE_BASE` flag
(`git2` guarantees the respective objects are present in each mode, which
the Rust code relies on via `unwrap`). -/
inductive Revspec where
  | single : Nat → Revspec
  | range : Nat → Nat → Bool → Revspec
deriving DecidableEq, Repr

/-- Model of the Repository Handle (`git2::Repository`): resolution,
merge-base and lookup callbacks plus the ancestry structure used by the
revwalk.  `size` bounds the ancestor enumeration depth. -/
structure Repo where
  headId : Nat
  parents : Nat → List Nat
  size : Nat
  revparseSingle : List Nat → Option Nat
  revparse : List Nat → Option Revspec
  mergeBase : Nat → Nat → Option Nat
  findObject : Nat → Option Nat
  findCommit : Nat → Option GCommit

/-- A seed operation recorded on the revwalk: `push` marks a commit (and
its ancestry) for inclusion, `hide` marks a commit (and its ancestry) for
exclusion. -/
inductive WalkOp where
  | push : Nat → WalkOp
  | hide : Nat → WalkOp
deriving DecidableEq, Repr

/-- `src/cli.rs` `GitArgs`: the traversal/filter configuration. -/
structure GitArgs where
  after : Option GTime := none
  before : Option GTime := none
  commit : Option (List Nat) := none
  commit_msg_grep : Option (List Nat) := none
deriving DecidableEq, Repr

/-- The named-argument view of `clap::ArgMatches` that
`GitArgs::from_cli_args` consults: only `after` and `before`. -/
structure ArgMatches where
  after : Option GTime
  before : Option GTime
deriving DecidableEq, Repr

/-- `src/cli.rs` `GitArgs::from_cli_args`: copy `after` and `before` from
the parsed matches, everything else from `Default::default()` (`None`). -/
def GitArgs.from_cli_args (git_matches : ArgMatches) : GitArgs :=
  { after := git_matches.after, before := git_matches.before }

/-- The revwalk-preparation half of `src/git.rs`
`determine_commits_to_analyse` (the loop over `args.commit`, an
`Option<String>`, plus the `push_head` fallback): computes the ordered
seed operations applied to the revwalk, or the first resolution error. -/
def prepare_walk_ops (repo : Repo) (commit : Option (List Nat)) :
    Except GitError (List WalkOp) :=
  match commit with
  | some c =>
    if c.head? = some 94 then
      match repo.revparseSingle c.tail with
      | none => Except.error (GitError.resolveFailed c)
      | some id => Except.ok [WalkOp.hide id]
    else
      match repo.revparse c with
      | none => Except.error (GitError.resolveFailed c)
      | some (Revspec.single id) => Except.ok [WalkOp.push id]
      | some (Revspec.range fromId toId mb) =>
        if mb then
          match repo.mergeBase fromId toId with
          | none => Except.error (GitError.mergeBaseFailed fromId toId)
          | some base =>
            match repo.findObject base with
            | none => Except.error (GitError.findObjectFailed base)
            | some o =>
              Except.ok [WalkOp.push toId, WalkOp.push o, WalkOp.hide fromId]
        else Except.ok [WalkOp.push toId, WalkOp.hide fromId]
  | none => Except.ok [WalkOp.push repo.headId]

/-- Ancestors of a commit (the commit itself included), enumerated to a
fuel bound; the Repository Handle's ancestry primitive. -/
def ancestorsTo (repo : Repo) : Nat → Nat → List Nat
  | 0, _ => []
  | fuel + 1, id => id :: (repo.parents id).flatMap (ancestorsTo repo fuel)

/-- The push seeds recorded on a revwalk. -/
def walkPushes (ops : List WalkOp) : List Nat :=
  ops.filterMap (fun op => match op with
    | WalkOp.push id => some id
    | WalkOp.hide _ => none)

/-- The hide seeds recorded on a revwalk. -/
def walkHides (ops : List WalkOp) : List Nat :=
  ops.filterMap (fun op => match op with
    | WalkOp.push _ => none
    | WalkOp.hide id => some id)

/-- The libgit2 revwalk traversal semantics (delegated to the Repository
Handle): every commit reachable from a pushed seed and not reachable from
a hidden seed, each id reported once, in an order the engine does not
re-sort (`Sort::NONE`). -/
def revwalkIds (repo : Repo) (ops : List WalkOp) : List Nat :=
  (((walkPushes ops).flatMap (ancestorsTo repo (repo.size + 1))).dedup).filter
    (fun id => id ∉ (walkHides ops).flatMap (ancestorsTo repo (repo.size + 1)))

/-- The `filter_map` closure in `determine_commits_to_analyse`: look the
id up (`filter_try!`), then drop the commit unless its message matches
and its timestamp is in range; a lookup failure is itself yielded as an
error element. -/
def filter_step (repo : Repo) (args : GitArgs) (id : Nat) :
    Option (Except GitError GCommit) :=
  match repo.findCommit id with
  | none => some (Except.error (GitError.findCommitFailed id))
  | some commit =>
    if !commit_message_matches commit.message args.commit_msg_grep then none
    else if !commit_timestamp_is_in_range commit.time args.before args.after then none
    else some (Except.ok commit)

/-- `src/git.rs` `determine_commits_to_analyse`: prepare the revwalk
seeds, let the Repository Handle linearize them, and lazily filter,
yielding per-commit `Result` values. -/
def determine_commits_to_analyse (repo : Repo) (args : GitArgs) :
    Except GitError (List (Except GitError GCommit)) :=
  match prepare_walk_ops repo args.commit with
  | Except.error e => Except.error e
  | Except.ok ops =>
    Except.ok ((revwalkIds repo ops).filterMap (filter_step repo args))

/-! ## Summary run -/

/-- `summary.rs` `SummaryRawData`: the four reported cardinalities. -/
structure SummaryRawData where
  no_of_commits : Nat
  no_of_authors : Nat
  no_of_entries : Nat
  no_of_entries_changed : Nat
deriving DecidableEq, Repr

/-- The `for commit in revwalk` loop of `summary.rs::run`: count the
commit, propagate a per-commit error (`commit?`), insert the author name,
and feed the tree into both entry walkers; after the loop, build the
`SummaryRawData` from the accumulators' cardinalities. -/
def summaryLoop : List (Except GitError GCommit) → Nat → List (List Nat) →
    List (List Nat) → List Nat → Except GitError SummaryRawData
  | [], n, authors, entries, changed =>
    Except.ok ⟨n, authors.length, entries.length, changed.length⟩
  | c :: rest, n, authors, entries, changed =>
    let n := n + 1
    match c with
    | Except.error e => Except.error e
    | Except.ok commit =>
      let authors :=
        match commit.author with
        | some name => insertName name authors
        | none => authors
      summaryLoop rest n authors
        (analyse_entries_in_commit commit entries)
        (analyse_entries_changed_in_commit commit changed)

/-- `summary.rs::run` from the point the commit stream is available: on
any error (`?`) return it having written nothing; only after the loop
completes is `raw_data.output(..)` called, modelled as the list of
records written to the output sink. -/
def summary_run (input : Except GitError (List (Except GitError GCommit))) :
    List SummaryRawData × Except GitError Unit :=
  match input with
  | Except.error e => ([], Except.error e)
  | Except.ok commits =>
    match summaryLoop commits 0 [] [] [] with
    | Except.error e => ([], Except.error e)
    | Except.ok raw_data => ([raw_data], Except.ok ())

/-- The first failure an invocation encounters: the resolution error, or
the first error element of the lazy commit sequence. -/
def firstFailure : Except GitError (List (Except GitError GCommit)) → Option GitError
  | Except.error e => some e
  | Except.ok commits =>
    commits.findSome? (fun c => match c with
      | Except.error e => some e
      | Except.ok _ => none)

/-! ## Hotspot run -/

/-- The `for commit in revwalk` loop of `hotspot.rs::run`: propagate a
per-commit error, otherwise feed the commit into the hotspot state. -/
def hotspotLoop : List (Except GitError GCommit) → HotState →
    Except GitError HotState
  | [], entries => Except.ok entries
  | c :: rest, entries =>
    match c with
    | Except.error e => Except.error e
    | Except.ok commit =>
      hotspotLoop rest (hotspot_analyse_entries_in_commit commit entries)

/-- The records `hotspot.rs::run` prints after the loop: one
`(name, revisions.len())` line per entry, in `BTreeSet` iteration
order (ascending by `Ord for EntryRevisions`, i.e. by name). -/
def hotspotOutput (entries : HotState) : List (List Nat × Nat) :=
  entries.map (fun er => (er.1, er.2.length))

/-- `hotspot.rs::run` from the point the commit stream is available. -/
def hotspot_run (input : Except GitError (List (Except GitError GCommit))) :
    Except GitError (List (List Nat × Nat)) :=
  match input with
  | Except.error e => Except.error e
  | Except.ok commits =>
    match hotspotLoop commits [] with
    | Except.error e => Except.error e
    | Except.ok entries => Except.ok (hotspotOutput entries)

/-! ## Derived definitions, demo inputs and witness repositories -/

/-- The net effect of one hotspot observation on the aggregator state:
ordered insert of a fresh `(name, {oid})` entry, or, when the name is
already present, an ordered in-place union with `{oid}`. -/
def hotUpdate (n : List Nat) (oid : Nat) : HotState → HotState
  | [] => [(n, [oid])]
  | y :: rest =>
    if nameLt n y.1 then (n, [oid]) :: y :: rest
    else if nameLt y.1 n then y :: hotUpdate n oid rest
    else (y.1, insertOid oid y.2) :: rest

/-- The revision set the Hotspot aggregator currently holds for a path
(empty when the path has not been observed). -/
def revsOf (p : List Nat) (s : HotState) : List Nat :=
  match hsGet p s with
  | some er => er.2
  | none => []

/-- The count `hotspot.rs::run` reports for a path:
`entry_revision.revisions.len()`. -/
def revCount (p : List Nat) (s : HotState) : Nat :=
  (revsOf p s).length

/-- The key `k` is strictly below the first key of the state (vacuously
true for the empty state). -/
def keyLtHead (k : List Nat) : HotState → Bool
  | [] => true
  | y :: _ => nameLt k y.1

/-- The hotspot state is strictly sorted by name: the invariant of the
`BTreeSet<EntryRevisions>` model, and its iteration order. -/
def sortedHot : HotState → Bool
  | [] => true
  | x :: rest => keyLtHead x.1 rest && sortedHot rest

/-- The printed hotspot records are in strictly ascending name order. -/
def outputSorted : List (List Nat × Nat) → Bool
  | [] => true
  | x :: rest =>
    (match rest with
     | [] => true
     | y :: _ => nameLt x.1 y.1) && outputSorted rest

/-- The first error element of a per-commit `Result` stream. -/
def firstErrorIn (cs : List (Except GitError GCommit)) : Option GitError :=
  cs.findSome? (fun c => match c with
    | Except.error e => some e
    | Except.ok _ => none)

/-- The spec's before rule in isolation: pass iff the timestamp is not
past the bound. -/
def beforePasses (t : GTime) : Option GTime → Bool
  | some b => !timeLt b t
  | none => true

/-- The spec's after rule in isolation: pass iff the timestamp is
strictly past the bound. -/
def afterPasses (t : GTime) : Option GTime → Bool
  | some a => timeLt a t
  | none => true

/-- The acceptance decision of the `filter_map` closure in
`determine_commits_to_analyse`: reject on a message mismatch, then
reject on an out-of-range timestamp, otherwise retain. -/
def commitRetained (args : GitArgs) (commit : GCommit) : Bool :=
  if !commit_message_matches commit.message args.commit_msg_grep then false
  else if !commit_timestamp_is_in_range commit.time args.before args.after then false
  else true

/-- Modelled from the spec: "PathIdentity construction must compose the
traversal path (ordered sequence of entry names from root to leaf) rather
than relying solely on the leaf's local name".  The Summary path-name set
as the spec intends it: keyed by the walk's directory prefix composed
with the leaf name (missing from `summary.rs`, which drops the root
prefix). -/
def spec_full_path_entries (commit : GCommit) (entries : List (List Nat)) :
    List (List Nat) :=
  (listWalk [] commit.tree).foldl
    (fun s re =>
      match re with
      | (root, TreeEntry.blob (some n) _) => insertName (root ++ n) s
      | _ => s) entries

/-- A commit whose tree holds `dir1/x` (content id 1) and `dir2/x`
(content id 2): two files with the same leaf name `x` (byte 120) in
different directories (`dir1` = bytes 100,105,114,49; `dir2` = bytes
100,105,114,50). -/
def demoCollisionCommit : GCommit :=
  { author := some [65]
  , message := none
  , time := ⟨0, 0⟩
  , tree :=
      TreeList.cons (TreeEntry.sub (some [100, 105, 114, 49])
          (TreeList.cons (TreeEntry.blob (some [120]) 1) TreeList.nil))
        (TreeList.cons (TreeEntry.sub (some [100, 105, 114, 50])
          (TreeList.cons (TreeEntry.blob (some [120]) 2) TreeList.nil))
          TreeList.nil) }

/-- Concrete repository for the C3 witness: the specifier `[97]`
resolves to the merge-base-mode range `1...2` with merge base 3. -/
def witnessRepoRange : Repo :=
  { headId := 0
  , parents := fun _ => []
  , size := 0
  , revparseSingle := fun _ => none
  , revparse := fun c =>
      if c = [97] then some (Revspec.range 1 2 true) else none
  , mergeBase := fun f t => if (f, t) = (1, 2) then some 3 else none
  , findObject := fun oid => some oid
  , findCommit := fun _ => none }

/-- Concrete repository for the C10 witness: only the specifier `[97]`
resolves (to commit 5); everything else is absent. -/
def witnessRepoExclusion : Repo :=
  { headId := 0
  , parents := fun _ => []
  , size := 0
  , revparseSingle := fun c => if c = [97] then some 5 else none
  , revparse := fun _ => none
  , mergeBase := fun _ _ => none
  , findObject := fun _ => none
  , findCommit := fun _ => none }

/-! ## Order lemmas for byte-wise lexicographic comparison -/

theorem nameLt_cons_iff (x y : Nat) (xs ys : List Nat) :
    nameLt (x :: xs) (y :: ys) = true ↔ x < y ∨ (x = y ∧ nameLt xs ys = true) := by
  simp [nameLt]

theorem nameLt_irrefl : ∀ a : List Nat, nameLt a a = false
  | [] => rfl
  | x :: xs => by simp [nameLt, nameLt_irrefl xs]

theorem nameLt_asymm : ∀ a b : List Nat, nameLt a b = true → nameLt b a = false
  | [], [] => by simp [nameLt]
  | [], _ :: _ => by simp [nameLt]
  | _ :: _, [] => by simp [nameLt]
  | x :: xs, y :: ys => by
    intro h
    rcases (nameLt_cons_iff x y xs ys).1 h with h1 | ⟨rfl, h2⟩
    · rw [Bool.eq_false_iff]
      intro hcon
      rcases (nameLt_cons_iff y x ys xs).1 hcon with h3 | ⟨h3, _⟩ <;> omega
    · have ih := nameLt_asymm xs ys h2
      rw [Bool.eq_false_iff]
      intro hcon
      rcases (nameLt_cons_iff x x ys xs).1 hcon with h3 | ⟨_, h4⟩
      · omega
      · rw [ih] at h4; exact Bool.false_ne_true h4

theorem nameLt_conn : ∀ a b : List Nat, nameLt a b = false → nameLt b a = false → a = b
  | [], [], _, _ => rfl
  | [], _ :: _, h1, _ => by simp [nameLt] at h1
  | _ :: _, [], _, h2 => by simp [nameLt] at h2
  | x :: xs, y :: ys, h1, h2 => by
    have hx1 : ¬ (x < y ∨ (x = y ∧ nameLt xs ys = true)) := by
      rw [← nameLt_cons_iff, h1]; exact Bool.false_ne_true
    have hx2 : ¬ (y < x ∨ (y = x ∧ nameLt ys xs = true)) := by
      rw [← nameLt_cons_iff, h2]; exact Bool.false_ne_true
    push_neg at hx1 hx2
    have hxy : x = y := by omega
    subst hxy
    have h3 : nameLt xs ys = false := Bool.eq_false_iff.2 (hx1.2 rfl)
    have h4 : nameLt ys xs = false := Bool.eq_false_iff.2 (hx2.2 rfl)
    rw [nameLt_conn xs ys h3 h4]

theorem nameLt_trans : ∀ a b c : List Nat,
    nameLt a b = true → nameLt b c = true → nameLt a c = true
  | [], _ :: _, _ :: _, _, _ => by simp [nameLt]
  | [], _ :: _, [], _, h2 => by simp [nameLt] at h2
  | [], [], _, h1, _ => by simp [nameLt] at h1
  | _ :: _, [], _, h1, _ => by simp [nameLt] at h1
  | _ :: _, _ :: _, [], _, h2 => by simp [nameLt] at h2
  | x :: xs, y :: ys, z :: zs, h1, h2 => by
    rcases (nameLt_cons_iff x y xs ys).1 h1 with ha | ⟨hae, ha⟩ <;>
      rcases (nameLt_cons_iff y z ys zs).1 h2 with hb | ⟨hbe, hb⟩
    · exact (nameLt_cons_iff x z xs zs).2 (Or.inl (Nat.lt_trans ha hb))
    · exact (nameLt_cons_iff x z xs zs).2 (Or.inl (hbe ▸ ha))
    · exact (nameLt_cons_iff x z xs zs).2 (Or.inl (hae ▸ hb))
    · exact (nameLt_cons_iff x z xs zs).2
        (Or.inr ⟨hae.trans hbe, nameLt_trans xs ys zs ha hb⟩)

theorem timeLt_irrefl (t : GTime) : timeLt t t = false := by
  simp [timeLt]

/-! ## `BTreeSet<Oid>` lemmas -/

theorem mem_insertOid (x b : Nat) : ∀ l : List Nat, b ∈ insertOid x l ↔ b = x ∨ b ∈ l
  | [] => by simp [insertOid]
  | y :: rest => by
    by_cases h1 : x < y
    · simp only [insertOid, if_pos h1, List.mem_cons]
    · by_cases h2 : y < x
      · simp only [insertOid, if_neg h1, if_pos h2, List.mem_cons,
          mem_insertOid x b rest]
        tauto
      · have hxy : x = y := by omega
        subst hxy
        simp only [insertOid, if_neg h1, if_neg h2, List.mem_cons]
        tauto

theorem insertOid_idem (x : Nat) : ∀ l : List Nat,
    insertOid x (insertOid x l) = insertOid x l
  | [] => by simp [insertOid]
  | y :: rest => by
    by_cases h1 : x < y
    · simp [insertOid, h1, Nat.lt_irrefl]
    · by_cases h2 : y < x
      · simp [insertOid, h1, h2, insertOid_idem x rest]
      · simp [insertOid, h1, h2]

theorem length_insertOid_le (x : Nat) : ∀ l : List Nat,
    (insertOid x l).length ≤ l.length + 1
  | [] => by simp [insertOid]
  | y :: rest => by
    by_cases h1 : x < y
    · simp [insertOid, h1]
    · by_cases h2 : y < x
      · have := length_insertOid_le x rest
        simp only [insertOid, if_neg h1, if_pos h2, List.length_cons]
        omega
      · simp [insertOid, h1, h2]

/-! ## The hotspot observation characterized as an ordered map update -/

theorem hsGet_some_key (p : List Nat) : ∀ (s : HotState) (er : List Nat × List Nat),
    hsGet p s = some er → er.1 = p
  | [], er => by simp [hsGet]
  | y :: rest, er => by
    cases h1 : nameLt p y.1 with
    | true => simp [hsGet, h1]
    | false =>
      cases h2 : nameLt y.1 p with
      | true =>
        intro h
        exact hsGet_some_key p rest er (by simpa [hsGet, h1, h2] using h)
      | false =>
        intro h
        have hy : y = er := by simpa [hsGet, h1, h2] using h
        rw [← hy]
        exact nameLt_conn y.1 p h2 h1

theorem hotspotObserve_eq_hotUpdate (n : List Nat) (oid : Nat) :
    ∀ s : HotState, hotspotObserve n oid s = hotUpdate n oid s
  | [] => by
    simp [hotspotObserve, hsInsert, hsGet, hsReplace, hotUpdate, nameLt_irrefl,
      insertOid]
  | y :: rest => by
    cases h1 : nameLt n y.1 with
    | true =>
      have h2 : nameLt y.1 n = false := nameLt_asymm _ _ h1
      simp [hotspotObserve, hsInsert, hsGet, hsReplace, hotUpdate, h1, h2,
        nameLt_irrefl, insertOid]
    | false =>
      cases h2 : nameLt y.1 n with
      | true =>
        have ih := hotspotObserve_eq_hotUpdate n oid rest
        have key : hotspotObserve n oid (y :: rest) =
            y :: hotspotObserve n oid rest := by
          rcases hget : hsGet n (hsInsert (n, []) rest) with _ | er
          · simp [hotspotObserve, hsInsert, hsGet, h1, h2, hget]
          · have hk : er.1 = n := hsGet_some_key _ _ _ hget
            simp [hotspotObserve, hsInsert, hsGet, hsReplace, h1, h2, hget, hk]
        rw [key, ih]
        simp [hotUpdate, h1, h2]
      | false =>
        simp [hotspotObserve, hsInsert, hsGet, hsReplace, hotUpdate, h1, h2,
          nameLt_irrefl]

theorem revsOf_hotUpdate_self (n : List Nat) (oid : Nat) :
    ∀ s : HotState, revsOf n (hotUpdate n oid s) = insertOid oid (revsOf n s)
  | [] => by simp [revsOf, hotUpdate, hsGet, nameLt_irrefl, insertOid]
  | y :: rest => by
    cases h1 : nameLt n y.1 with
    | true =>
      simp [revsOf, hotUpdate, hsGet, h1, nameLt_irrefl, insertOid]
    | false =>
      cases h2 : nameLt y.1 n with
      | true =>
        simpa [revsOf, hotUpdate, hsGet, h1, h2] using
          revsOf_hotUpdate_self n oid rest
      | false =>
        simp [revsOf, hotUpdate, hsGet, h1, h2]

theorem revsOf_hotUpdate_other (p n : List Nat) (oid : Nat) (hpn : p ≠ n) :
    ∀ s : HotState, revsOf p (hotUpdate n oid s) = revsOf p s
  | [] => by
    cases hp1 : nameLt p n with
    | true => simp [revsOf, hotUpdate, hsGet, hp1]
    | false =>
      cases hp2 : nameLt n p with
      | true => simp [revsOf, hotUpdate, hsGet, hp1, hp2]
      | false => exact absurd (nameLt_conn p n hp1 hp2) hpn
  | y :: rest => by
    cases h1 : nameLt n y.1 with
    | true =>
      cases hp1 : nameLt p n with
      | true =>
        have hp3 : nameLt p y.1 = true := nameLt_trans p n y.1 hp1 h1
        simp [revsOf, hotUpdate, hsGet, h1, hp1, hp3]
      | false =>
        cases hp2 : nameLt n p with
        | true => simp [revsOf, hotUpdate, hsGet, h1, hp1, hp2]
        | false => exact absurd (nameLt_conn p n hp1 hp2) hpn
    | false =>
      cases h2 : nameLt y.1 n with
      | true =>
        cases hq1 : nameLt p y.1 with
        | true => simp [revsOf, hotUpdate, hsGet, h1, h2, hq1]
        | false =>
          cases hq2 : nameLt y.1 p with
          | true =>
            simpa [revsOf, hotUpdate, hsGet, h1, h2, hq1, hq2] using
              revsOf_hotUpdate_other p n oid hpn rest
          | false => simp [revsOf, hotUpdate, hsGet, h1, h2, hq1, hq2]
      | false =>
        have hyn : y.1 = n := nameLt_conn y.1 n h2 h1
        cases hq1 : nameLt p y.1 with
        | true => simp [revsOf, hotUpdate, hsGet, h1, h2, hq1]
        | false =>
          cases hq2 : nameLt y.1 p with
          | true => simp [revsOf, hotUpdate, hsGet, h1, h2, hq1, hq2]
          | false => exact absurd ((nameLt_conn p y.1 hq1 hq2).trans hyn) hpn

/-! ## Sortedness of the hotspot state (`BTreeSet` iteration order) -/

theorem keyLtHead_hotUpdate (k n : List Nat) (oid : Nat) (s : HotState)
    (hs : keyLtHead k s = true) (hn : nameLt k n = true) :
    keyLtHead k (hotUpdate n oid s) = true := by
  match s with
  | [] => simpa [hotUpdate, keyLtHead] using hn
  | y :: rest =>
    cases h1 : nameLt n y.1 with
    | true => simpa [hotUpdate, keyLtHead, h1] using hn
    | false =>
      cases h2 : nameLt y.1 n with
      | true => simpa [hotUpdate, keyLtHead, h1, h2] using hs
      | false => simpa [hotUpdate, keyLtHead, h1, h2] using hs

theorem sortedHot_hotUpdate (n : List Nat) (oid : Nat) :
    ∀ s : HotState, sortedHot s = true → sortedHot (hotUpdate n oid s) = true
  | [], _ => by simp [hotUpdate, sortedHot, keyLtHead]
  | y :: rest, hsrt => by
    have hhd : keyLtHead y.1 rest = true := by
      have := hsrt
      simp only [sortedHot, Bool.and_eq_true] at this
      exact this.1
    have htl : sortedHot rest = true := by
      have := hsrt
      simp only [sortedHot, Bool.and_eq_true] at this
      exact this.2
    cases h1 : nameLt n y.1 with
    | true =>
      cases rest with
      | nil => simp [hotUpdate, sortedHot, keyLtHead, h1, htl]
      | cons z rest2 =>
        have hz : nameLt y.1 z.1 = true := by simpa [keyLtHead] using hhd
        simp [hotUpdate, sortedHot, keyLtHead, h1, hz]
        simpa [sortedHot, keyLtHead] using htl
    | false =>
      cases h2 : nameLt y.1 n with
      | true =>
        have ih := sortedHot_hotUpdate n oid rest htl
        have hk := keyLtHead_hotUpdate y.1 n oid rest hhd h2
        simp [hotUpdate, sortedHot, h1, h2, ih, hk]
      | false =>
        cases rest with
        | nil => simp [hotUpdate, sortedHot, keyLtHead, h1, h2, htl]
        | cons z rest2 =>
          have hz : nameLt y.1 z.1 = true := by simpa [keyLtHead] using hhd
          simp [hotUpdate, sortedHot, keyLtHead, h1, h2, hz]
          simpa [sortedHot, keyLtHead] using htl

theorem sortedHot_entryStep (s : HotState) (re : List Nat × TreeEntry)
    (hs : sortedHot s = true) : sortedHot (hotspotEntryStep s re) = true := by
  rcases re with ⟨root, e⟩
  cases e with
  | blob name oid =>
    cases name with
    | some n =>
      rw [hotspotEntryStep, hotspotObserve_eq_hotUpdate]
      exact sortedHot_hotUpdate n oid s hs
    | none => exact hs
  | sub name ts => exact hs
  | other name oid => exact hs

theorem sortedHot_foldl : ∀ (obs : List (List Nat × TreeEntry)) (s : HotState),
    sortedHot s = true → sortedHot (obs.foldl hotspotEntryStep s) = true
  | [], _, hs => hs
  | re :: rest, s, hs =>
    sortedHot_foldl rest (hotspotEntryStep s re) (sortedHot_entryStep s re hs)

theorem sortedHot_analyse (c : GCommit) (s : HotState) (hs : sortedHot s = true) :
    sortedHot (hotspot_analyse_entries_in_commit c s) = true :=
  sortedHot_foldl (listWalk [] c.tree) s hs

theorem sortedHot_hotspotLoop :
    ∀ (cs : List (Except GitError GCommit)) (s : HotState),
    sortedHot s = true → ∀ out, hotspotLoop cs s = Except.ok out →
    sortedHot out = true
  | [], s, hs, out, hout => by
    rw [hotspotLoop] at hout
    cases hout
    exact hs
  | c :: rest, s, hs, out, hout => by
    cases c with
    | error e => simp [hotspotLoop] at hout
    | ok commit =>
      exact sortedHot_hotspotLoop rest _
        (sortedHot_analyse commit s hs) out (by simpa [hotspotLoop] using hout)

theorem outputSorted_hotspotOutput : ∀ s : HotState,
    sortedHot s = true → outputSorted (hotspotOutput s) = true
  | [], _ => rfl
  | x :: rest, hs => by
    have hhd : keyLtHead x.1 rest = true := by
      have := hs
      simp only [sortedHot, Bool.and_eq_true] at this
      exact this.1
    have htl : sortedHot rest = true := by
      have := hs
      simp only [sortedHot, Bool.and_eq_true] at this
      exact this.2
    have ih := outputSorted_hotspotOutput rest htl
    cases rest with
    | nil => simp [hotspotOutput, outputSorted]
    | cons y rest2 =>
      have hxy : nameLt x.1 y.1 = true := by simpa [keyLtHead] using hhd
      simpa [hotspotOutput, outputSorted, hxy] using ih

/-! ## Error propagation through the summary loop -/

theorem summaryLoop_error : ∀ (cs : List (Except GitError GCommit)) (n : Nat)
    (a e : List (List Nat)) (ch : List Nat) (err : GitError),
    firstErrorIn cs = some err → summaryLoop cs n a e ch = Except.error err
  | [], n, a, e, ch, err => by simp [firstErrorIn]
  | c :: rest, n, a, e, ch, err => by
    cases c with
    | error e0 =>
      intro h
      have : e0 = err := by simpa [firstErrorIn, List.findSome?] using h
      simp [summaryLoop, this]
    | ok commit =>
      intro h
      have hrest : firstErrorIn rest = some err := by
        simpa [firstErrorIn, List.findSome?] using h
      simpa [summaryLoop] using
        summaryLoop_error rest (n + 1) _ _ _ err hrest

theorem summaryLoop_ok : ∀ (cs : List (Except GitError GCommit)) (n : Nat)
    (a e : List (List Nat)) (ch : List Nat),
    firstErrorIn cs = none → ∃ d, summaryLoop cs n a e ch = Except.ok d
  | [], n, a, e, ch, _ => ⟨⟨n, a.length, e.length, ch.length⟩, rfl⟩
  | c :: rest, n, a, e, ch, h => by
    cases c with
    | error e0 => simp [firstErrorIn, List.findSome?] at h
    | ok commit =>
      have hrest : firstErrorIn rest = none := by
        simpa [firstErrorIn, List.findSome?] using h
      obtain ⟨d, hd⟩ := summaryLoop_ok rest (n + 1)
        (match commit.author with
         | some name => insertName name a
         | none => a)
        (analyse_entries_in_commit commit e)
        (analyse_entries_changed_in_commit commit ch) hrest
      exact ⟨d, by simpa [summaryLoop] using hd⟩

/-! ## Substring semantics of the message filter -/

theorem leadsWith_iff : ∀ p m : List Nat, leadsWith p m = true ↔ ∃ r, m = p ++ r
  | [], m => by simp [leadsWith]
  | x :: ps, [] => by simp [leadsWith]
  | x :: ps, y :: ms => by
    simp only [leadsWith, Bool.and_eq_true, beq_iff_eq, leadsWith_iff ps ms,
      List.cons_append, List.cons.injEq]
    constructor
    · rintro ⟨rfl, r, rfl⟩; exact ⟨r, rfl, rfl⟩
    · rintro ⟨r, rfl, rfl⟩; exact ⟨rfl, r, rfl⟩

theorem containsSubstr_iff (p : List Nat) : ∀ m : List Nat,
    containsSubstr m p = true ↔ ∃ l r, m = l ++ p ++ r
  | [] => by
    cases p with
    | nil =>
      simp [containsSubstr, leadsWith]
    | cons a ps =>
      rw [containsSubstr]
      simp [leadsWith]
  | x :: rest => by
    by_cases h : leadsWith p (x :: rest) = true
    · rw [containsSubstr, if_pos h]
      obtain ⟨r, hr⟩ := (leadsWith_iff p _).1 h
      simp only [true_iff]
      exact ⟨[], r, by simpa using hr⟩
    · rw [containsSubstr, if_neg h]
      rw [containsSubstr_iff p rest]
      constructor
      · rintro ⟨l, r, rfl⟩
        exact ⟨x :: l, r, rfl⟩
      · rintro ⟨l, r, hm⟩
        cases l with
        | nil =>
          exact absurd ((leadsWith_iff p (x :: rest)).2 ⟨r, by simpa using hm⟩) h
        | cons a l2 =>
          injection hm with h1 h2
          exact ⟨l2, r, h2⟩

/-! ## The filter as a conjunction of three independent predicates -/

theorem in_range_eq_before_and_after (t : GTime) (b a : Option GTime) :
    commit_timestamp_is_in_range t b a = (beforePasses t b && afterPasses t a) := by
  cases b with
  | none =>
    cases a <;> simp [commit_timestamp_is_in_range, beforePasses, afterPasses]
  | some b0 =>
    cases hbt : timeLt b0 t <;>
      cases a <;>
        simp [commit_timestamp_is_in_range, beforePasses, afterPasses, hbt]

theorem commitRetained_eq (args : GitArgs) (commit : GCommit) :
    commitRetained args commit =
      (commit_message_matches commit.message args.commit_msg_grep &&
        commit_timestamp_is_in_range commit.time args.before args.after) := by
  cases hm : commit_message_matches commit.message args.commit_msg_grep <;>
    cases hr : commit_timestamp_is_in_range commit.time args.before args.after <;>
      simp [commitRetained, hm, hr]

theorem filter_step_eq (repo : Repo) (args : GitArgs) (id : Nat) (commit : GCommit)
    (h : repo.findCommit id = some commit) :
    filter_step repo args id =
      (if commitRetained args commit then some (Except.ok commit) else none) := by
  cases hm : commit_message_matches commit.message args.commit_msg_grep <;>
    cases hr : commit_timestamp_is_in_range commit.time args.before args.after <;>
      simp [filter_step, commitRetained, h, hm, hr]

/-! ## Claim theorems -/

/-- C1: the claim says the Summary path-name set counts `dir1/x` and
`dir2/x` as two distinct paths because PathIdentity composes the
traversal path.  The code (`summary.rs::analyse_entries_in_commit`)
inserts only `entry.name()` — the leaf's local name — so both files
collapse to the single path `x` and the set has cardinality 1, while the
spec-intended full-path set has cardinality 2. -/
theorem C1_summary_conflates_same_leaf_names :
    (analyse_entries_in_commit demoCollisionCommit []).length = 1 ∧
    (spec_full_path_entries demoCollisionCommit []).length = 2 := by
  constructor <;> rfl

/-- C2 counterexample: the claim says a commit whose timestamp equals the
configured before bound is rejected; `commit_timestamp_is_in_range`
retains it (the code tests `b < timestamp`, not `b ≤ timestamp`). -/
theorem C2_equal_timestamp_retained :
    commit_timestamp_is_in_range ⟨100, 0⟩ (some ⟨100, 0⟩) none = true := by
  decide

/-- C2 (amended): with a before bound `b` configured the filter rejects a
commit iff its timestamp is strictly later than `b` — equivalently it
retains iff `timestamp ≤ b`, the after bound applying independently — so
a commit whose timestamp equals `b` passes the before rule. -/
theorem C2_before_bound_is_non_strict (t b : GTime) (a : Option GTime) :
    commit_timestamp_is_in_range t (some b) a =
      (!timeLt b t &&
        (match a with
         | some x => timeLt x t
         | none => true)) ∧
    commit_timestamp_is_in_range t (some t) none = true := by
  constructor
  · cases hbt : timeLt b t <;> cases a <;>
      simp [commit_timestamp_is_in_range, hbt]
  · simp [commit_timestamp_is_in_range, timeLt_irrefl]

/-- C6: with no pattern every commit passes the message rule; with a
pattern a message-less commit is rejected; with both, the commit passes
iff the pattern occurs in the message as a literal, case-sensitive
(byte-exact) substring. -/
theorem C6_message_filter_is_literal_substring (m p : List Nat) :
    (∀ msg : Option (List Nat), commit_message_matches msg none = true) ∧
    commit_message_matches none (some p) = false ∧
    (commit_message_matches (some m) (some p) = true ↔ ∃ l r, m = l ++ p ++ r) := by
  refine ⟨fun msg => by cases msg <;> rfl, rfl, ?_⟩
  simpa [commit_message_matches] using containsSubstr_iff p m

theorem C6_witness : commit_message_matches (some [1, 2, 3]) (some [2]) = true :=
  (C6_message_filter_is_literal_substring [1, 2, 3] [2]).2.2.mpr ⟨[1], [3], rfl⟩

/-- C7: filter acceptance is the conjunction of the three independent
predicates (message, before bound, after bound); with only a before
bound configured acceptance is exactly the before comparison, and with
only a message pattern configured it is exactly the message test, so the
after rule `timestamp > after` is evaluated independently of the
others. -/
theorem C7_filter_is_independent_conjunction (commit : GCommit)
    (g : Option (List Nat)) (b a : Option GTime) :
    commitRetained ⟨a, b, none, g⟩ commit =
      (commit_message_matches commit.message g &&
        beforePasses commit.time b && afterPasses commit.time a) ∧
    commitRetained ⟨none, b, none, none⟩ commit = beforePasses commit.time b ∧
    commitRetained ⟨none, none, none, g⟩ commit =
      commit_message_matches commit.message g := by
  refine ⟨?_, ?_, ?_⟩
  · rw [commitRetained_eq]
    simp only [in_range_eq_before_and_after, Bool.and_assoc]
  · rw [commitRetained_eq]
    simp [in_range_eq_before_and_after, beforePasses, afterPasses,
      commit_message_matches]
  · rw [commitRetained_eq]
    simp [in_range_eq_before_and_after, beforePasses, afterPasses]

/-- C3: for a range specifier resolving to endpoints `from`/`to`, the
Revision Selector pushes `to` as an inclusion seed and hides `from`'s
ancestry; in merge-base mode it additionally pushes the merge base of
`from` and `to` (looked up as a commit object) before hiding `from`. -/
theorem C3_range_pushes_to_then_base_then_hides_from (repo : Repo)
    (c : List Nat) (fromId toId base o : Nat) (mb : Bool)
    (hnc : ¬ c.head? = some 94)
    (hr : repo.revparse c = some (Revspec.range fromId toId mb))
    (hmb : mb = true →
      repo.mergeBase fromId toId = some base ∧ repo.findObject base = some o) :
    prepare_walk_ops repo (some c) =
      Except.ok (WalkOp.push toId ::
        ((if mb then [WalkOp.push o] else []) ++ [WalkOp.hide fromId])) := by
  rw [prepare_walk_ops, if_neg hnc, hr]
  cases mb with
  | false => rfl
  | true =>
    obtain ⟨hm, hf⟩ := hmb rfl
    simp [hm, hf]

theorem C3_witness :
    prepare_walk_ops witnessRepoRange (some [97]) =
      Except.ok (WalkOp.push 2 ::
        ((if true then [WalkOp.push 3] else []) ++ [WalkOp.hide 1])) :=
  C3_range_pushes_to_then_base_then_hides_from witnessRepoRange [97] 1 2 3 3 true
    (by decide) rfl (fun _ => ⟨rfl, rfl⟩)

/-- C4: the Hotspot aggregator is monotonic and deduplicating — one more
observation (the insert-empty / get / replace sequence of
`hotspot.rs::analyse_entries_in_commit`) never removes a blob id from any
path's revision set, and observing the same `(name, oid)` pair twice
grows the reported count for any path by at most 1 in total. -/
theorem C4_hotspot_monotone_and_dedup (s : HotState) (p n : List Nat)
    (oid b : Nat) :
    (b ∈ revsOf p s → b ∈ revsOf p (hotspotObserve n oid s)) ∧
    revCount p (hotspotObserve n oid (hotspotObserve n oid s)) ≤
      revCount p s + 1 := by
  simp only [hotspotObserve_eq_hotUpdate]
  constructor
  · intro hb
    by_cases hpn : p = n
    · subst hpn
      rw [revsOf_hotUpdate_self]
      exact (mem_insertOid oid b _).2 (Or.inr hb)
    · rw [revsOf_hotUpdate_other p n oid hpn]
      exact hb
  · by_cases hpn : p = n
    · subst hpn
      simp only [revCount, revsOf_hotUpdate_self, insertOid_idem]
      exact length_insertOid_le oid _
    · simp only [revCount, revsOf_hotUpdate_other p n oid hpn]
      exact Nat.le_succ _

theorem C4_witness :
    (2 ∈ revsOf [1] (hotspotObserve [1] 3 [([1], [2])])) ∧
    revCount [1] (hotspotObserve [1] 3 (hotspotObserve [1] 3 [([1], [2])])) ≤
      revCount [1] [([1], [2])] + 1 :=
  ⟨(C4_hotspot_monotone_and_dedup [([1], [2])] [1] [1] 3 2).1 (by decide),
   (C4_hotspot_monotone_and_dedup [([1], [2])] [1] [1] 3 2).2⟩

/-- C5: if the traversal yields an error — a failed specifier resolution,
or any error element in the lazy per-commit stream (commit lookup
included) — `summary.rs::run` returns exactly that first error and
writes nothing to the output sink; the statistics record is written only
when the whole stream is error-free. -/
theorem C5_errors_propagate_without_output
    (input : Except GitError (List (Except GitError GCommit))) :
    (∀ err, firstFailure input = some err →
      summary_run input = ([], Except.error err)) ∧
    (firstFailure input = none →
      ∃ d, summary_run input = ([d], Except.ok ())) := by
  cases input with
  | error e =>
    constructor
    · intro err h
      have : e = err := by simpa [firstFailure] using h
      simp [summary_run, this]
    · intro h
      simp [firstFailure] at h
  | ok commits =>
    constructor
    · intro err h
      have hl := summaryLoop_error commits 0 [] [] [] err
        (by simpa [firstFailure, firstErrorIn] using h)
      simp [summary_run, hl]
    · intro h
      obtain ⟨d, hd⟩ := summaryLoop_ok commits 0 [] [] []
        (by simpa [firstFailure, firstErrorIn] using h)
      exact ⟨d, by simp [summary_run, hd]⟩

theorem C5_witness :
    summary_run (Except.ok [Except.error (GitError.findCommitFailed 7)]) =
      ([], Except.error (GitError.findCommitFailed 7)) :=
  (C5_errors_propagate_without_output
      (Except.ok [Except.error (GitError.findCommitFailed 7)])).1
    (GitError.findCommitFailed 7) rfl

/-- C8: whatever commit stream the Hotspot mode processes, the
`(path, revision-count)` records it emits are ordered by path name
ascending (byte-wise lexicographic `BTreeSet` iteration order), not by
count. -/
theorem C8_hotspot_output_ordered_by_path
    (input : Except GitError (List (Except GitError GCommit)))
    (out : List (List Nat × Nat)) (h : hotspot_run input = Except.ok out) :
    outputSorted out = true := by
  cases input with
  | error e => simp [hotspot_run] at h
  | ok commits =>
    rcases hloop : hotspotLoop commits [] with e | entries
    · rw [hotspot_run, hloop] at h
      cases h
    · rw [hotspot_run, hloop] at h
      cases h
      exact outputSorted_hotspotOutput entries
        (sortedHot_hotspotLoop commits [] rfl entries hloop)

theorem C8_witness : outputSorted [([120], 2)] = true :=
  C8_hotspot_output_ordered_by_path
    (Except.ok [Except.ok demoCollisionCommit]) [([120], 2)] rfl

/-- C9: `GitArgs::from_cli_args` populates only `after` and `before`; its
`commit` and `commit_msg_grep` fields are always `None`, so an invocation
built through it always seeds the walk from the repository head and its
message rule imposes no constraint on any commit. -/
theorem C9_from_cli_args_head_walk_no_grep (m : ArgMatches) (repo : Repo)
    (msg : Option (List Nat)) :
    (GitArgs.from_cli_args m).commit = none ∧
    (GitArgs.from_cli_args m).commit_msg_grep = none ∧
    prepare_walk_ops repo (GitArgs.from_cli_args m).commit =
      Except.ok [WalkOp.push repo.headId] ∧
    commit_message_matches msg (GitArgs.from_cli_args m).commit_msg_grep = true := by
  refine ⟨rfl, rfl, rfl, ?_⟩
  cases msg <;> rfl

/-- C10: a lone `^`-prefixed specifier hides its target, registers no
inclusion seed, and suppresses the head fallback (`push_head` fires only
when `commit` is `None`), so the commit sequence is empty and Summary
reports all four cardinalities as 0. -/
theorem C10_pure_exclusion_yields_empty_and_zeros (repo : Repo)
    (s : List Nat) (target : Nat) (a b : Option GTime) (g : Option (List Nat))
    (hcaret : s.head? = some 94)
    (hres : repo.revparseSingle s.tail = some target) :
    determine_commits_to_analyse repo ⟨a, b, some s, g⟩ = Except.ok [] ∧
    summary_run (determine_commits_to_analyse repo ⟨a, b, some s, g⟩) =
      ([⟨0, 0, 0, 0⟩], Except.ok ()) := by
  have hprep : prepare_walk_ops repo (some s) =
      Except.ok [WalkOp.hide target] := by
    rw [prepare_walk_ops, if_pos hcaret, hres]
  have hdet : determine_commits_to_analyse repo ⟨a, b, some s, g⟩ =
      Except.ok [] := by
    rw [determine_commits_to_analyse]
    rw [hprep]
    simp [revwalkIds, walkPushes, walkHides]
  exact ⟨hdet, by rw [hdet]; rfl⟩

theorem C10_witness :
    determine_commits_to_analyse witnessRepoExclusion
        ⟨none, none, some [94, 97], none⟩ = Except.ok [] ∧
    summary_run (determine_commits_to_analyse witnessRepoExclusion
        ⟨none, none, some [94, 97], none⟩) =
      ([⟨0, 0, 0, 0⟩], Except.ok ()) :=
  C10_pure_exclusion_yields_empty_and_zeros witnessRepoExclusion [94, 97] 5
    none none none rfl rfl

example : timeLt ⟨3, 0⟩ ⟨3, 0⟩ = false := by decide
example : commit_timestamp_is_in_range ⟨0, 0⟩ (some ⟨1, 0⟩) none = true := by decide
example : commit_timestamp_is_in_range ⟨0, 0⟩ (some ⟨0, 0⟩) none = true := by decide
example : commit_timestamp_is_in_range ⟨1, 0⟩ (some ⟨0, 0⟩) none = false := by decide
example : commit_timestamp_is_in_range ⟨0, 0⟩ none (some ⟨0, 0⟩) = false := by decide
example : commit_message_matches (some [1, 2, 3]) (some [2, 3]) = true := by decide
example : commit_message_matches (some [1, 2, 3]) (some [3, 2]) = false := by decide
example : commit_message_matches none (some []) = false := by decide
example : commit_message_matches none none = true := by decide
